import Mathlib

/-!
Verification of the move-generation and turn-state engine of a small
two-player chess-like game (`chess_g.py`).  The board is the Python list of
lists of optional pieces; list indexing follows Python semantics (negative
indices wrap once, indices past either end raise `IndexError`, modelled by
`Except.error`).  Every per-piece move generator and the click handler of
`Game.run` are translated function by function.
-/

/-- Piece colors, written `'w'` / `'b'` in the source. -/
inductive Color where
  | w : Color
  | b : Color
deriving DecidableEq, Repr

/-- The six piece classes of the source. -/
inductive Kind where
  | king : Kind
  | queen : Kind
  | rook : Kind
  | bishop : Kind
  | knight : Kind
  | pawn : Kind
deriving DecidableEq, Repr

/-- A piece: its color plus the class it was constructed from. -/
structure Piece where
  color : Color
  kind : Kind
deriving DecidableEq, Repr

/-- A board square: `None` or a piece. -/
abbrev Cell := Option Piece

/-- The board grid `Board().grid`: a Python list of rows, each a list of cells. -/
abbrev Grid := List (List Cell)

/-- Python list-index resolution for a list of length `len`: indices in
`[0, len)` are used as is, indices in `[-len, 0)` wrap once, anything else
raises `IndexError` (`none`). -/
def pyIdxOf (len : Nat) (i : Int) : Option Nat :=
  if 0 ≤ i ∧ i < len then some i.toNat
  else if i < 0 ∧ 0 ≤ i + len then some (i + len).toNat
  else none

/-- Python `l[i]` as an `Option` (`none` = `IndexError`). -/
def pyGet (l : List α) (i : Int) : Option α :=
  match pyIdxOf l.length i with
  | some n => l.get? n
  | none => none

/-- Python `l[i] = a` (`none` = `IndexError`). -/
def pySet (l : List α) (i : Int) (a : α) : Option (List α) :=
  match pyIdxOf l.length i with
  | some n => some (l.set n a)
  | none => none

/-- The occupancy query `board[y][x]`, with Python indexing on both levels. -/
def cellE (g : Grid) (x y : Int) : Except Unit Cell :=
  match pyGet g y with
  | none => .error ()
  | some row =>
    match pyGet row x with
    | none => .error ()
    | some c => .ok c

/-- The assignment `board[y][x] = v`, with Python indexing on both levels. -/
def setCell (g : Grid) (x y : Int) (v : Cell) : Except Unit Grid :=
  match pyGet g y with
  | none => .error ()
  | some row =>
    match pySet row x v with
    | none => .error ()
    | some row2 =>
      match pySet g y row2 with
      | none => .error ()
      | some g2 => .ok g2

/-- The bounds guard `0 <= x < 8 and 0 <= y < 8` used throughout move
generation. -/
def inBp (x y : Int) : Prop :=
  0 ≤ x ∧ x < 8 ∧ 0 ≤ y ∧ y < 8

instance (x y : Int) : Decidable (inBp x y) := by
  unfold inBp; infer_instance

/-- One candidate square of a King/Knight offset move: include it when the
guard holds and the target is empty or an opposing piece. -/
def tryStep (c : Color) (g : Grid) (nx ny : Int) : Except Unit (List (Int × Int)) :=
  if inBp nx ny then
    match cellE g nx ny with
    | .error e => .error e
    | .ok none => .ok [(nx, ny)]
    | .ok (some p) => if p.color ≠ c then .ok [(nx, ny)] else .ok []
  else .ok []

/-- The offset loop shared by King and Knight move generation. -/
def stepMoves (c : Color) (g : Grid) (x y : Int) : List (Int × Int) → Except Unit (List (Int × Int))
  | [] => .ok []
  | (dx, dy) :: rest =>
    match tryStep c g (x + dx) (y + dy) with
    | .error e => .error e
    | .ok here =>
      match stepMoves c g x y rest with
      | .error e => .error e
      | .ok more => .ok (here ++ more)

/-- King offsets: `dx` in `[-1,0,1]` outside, `dy` inside, skipping `(0,0)`. -/
def kingOffsets : List (Int × Int) :=
  [(-1, -1), (-1, 0), (-1, 1), (0, -1), (0, 1), (1, -1), (1, 0), (1, 1)]

/-- `King.get_legal_moves`. -/
def King.get_legal_moves (c : Color) (g : Grid) (x y : Int) : Except Unit (List (Int × Int)) :=
  stepMoves c g x y kingOffsets

/-- Knight offsets, in source order. -/
def knightOffsets : List (Int × Int) :=
  [(-2, -1), (-1, -2), (1, -2), (2, -1), (2, 1), (1, 2), (-1, 2), (-2, 1)]

/-- `Knight.get_legal_moves`. -/
def Knight.get_legal_moves (c : Color) (g : Grid) (x y : Int) : Except Unit (List (Int × Int)) :=
  stepMoves c g x y knightOffsets

/-- The `while` loop of Rook/Bishop ray-casting, stepping by `(dx, dy)` from
candidate `(nx, ny)`: empty squares are collected and the walk continues, an
opposing piece is collected and stops the walk, an own piece stops it
uncollected.  The fuel argument only bounds the iteration count; `16` is
never reached because a ray leaves the `[0,7]` guard after at most eight
in-bounds candidates. -/
def ray (c : Color) (g : Grid) (dx dy : Int) : Int → Int → Nat → Except Unit (List (Int × Int))
  | _, _, 0 => .ok []
  | nx, ny, fuel + 1 =>
    if inBp nx ny then
      match cellE g nx ny with
      | .error e => .error e
      | .ok none =>
        match ray c g dx dy (nx + dx) (ny + dy) fuel with
        | .error e => .error e
        | .ok rest => .ok ((nx, ny) :: rest)
      | .ok (some p) => if p.color ≠ c then .ok [(nx, ny)] else .ok []
    else .ok []

/-- The `for dx, dy in directions` loop of Rook/Bishop move generation. -/
def rayAll (c : Color) (g : Grid) (x y : Int) : List (Int × Int) → Except Unit (List (Int × Int))
  | [] => .ok []
  | (dx, dy) :: rest =>
    match ray c g dx dy (x + dx) (y + dy) 16 with
    | .error e => .error e
    | .ok here =>
      match rayAll c g x y rest with
      | .error e => .error e
      | .ok more => .ok (here ++ more)

/-- Rook directions, in source order. -/
def rookDirections : List (Int × Int) := [(1, 0), (-1, 0), (0, 1), (0, -1)]

/-- `Rook.get_legal_moves`. -/
def Rook.get_legal_moves (c : Color) (g : Grid) (x y : Int) : Except Unit (List (Int × Int)) :=
  rayAll c g x y rookDirections

/-- Bishop directions, in source order. -/
def bishopDirections : List (Int × Int) := [(1, 1), (-1, 1), (-1, -1), (1, -1)]

/-- `Bishop.get_legal_moves`. -/
def Bishop.get_legal_moves (c : Color) (g : Grid) (x y : Int) : Except Unit (List (Int × Int)) :=
  rayAll c g x y bishopDirections

/-- `Queen.get_legal_moves`: Rook's output concatenated with Bishop's. -/
def Queen.get_legal_moves (c : Color) (g : Grid) (x y : Int) : Except Unit (List (Int × Int)) :=
  match Rook.get_legal_moves c g x y with
  | .error e => .error e
  | .ok r =>
    match Bishop.get_legal_moves c g x y with
    | .error e => .error e
    | .ok b2 => .ok (r ++ b2)

/-- `dir = 1 if self.color == 'w' else -1`. -/
def pawnDir (c : Color) : Int :=
  match c with
  | Color.w => 1
  | Color.b => -1

/-- `start_row = 6 if self.color == 'w' else 1`. -/
def startRow (c : Color) : Int :=
  match c with
  | Color.w => 6
  | Color.b => 1

/-- The forward part of pawn move generation: `board[y - dir][x]` is read
with no bounds guard; when empty the single step is collected and, from the
starting row with `board[y - 2*dir][x]` also empty, the double step too. -/
def pawnForward (c : Color) (g : Grid) (x y : Int) : Except Unit (List (Int × Int)) :=
  match cellE g x (y - pawnDir c) with
  | .error e => .error e
  | .ok (some _) => .ok []
  | .ok none =>
    if y = startRow c then
      match cellE g x (y - 2 * pawnDir c) with
      | .error e => .error e
      | .ok none => .ok [(x, y - pawnDir c), (x, y - 2 * pawnDir c)]
      | .ok (some _) => .ok [(x, y - pawnDir c)]
    else .ok [(x, y - pawnDir c)]

/-- One diagonal-capture candidate of pawn move generation (`dx2 = -1` or
`1`): guarded by the bounds check, collected only when an opposing piece is
present. -/
def pawnDiag (c : Color) (g : Grid) (x y dx2 : Int) : Except Unit (List (Int × Int)) :=
  if inBp (x + dx2) (y - pawnDir c) then
    match cellE g (x + dx2) (y - pawnDir c) with
    | .error e => .error e
    | .ok (some p) => if p.color ≠ c then .ok [(x + dx2, y - pawnDir c)] else .ok []
    | .ok none => .ok []
  else .ok []

/-- `Pawn.get_legal_moves`: forward part, then the `dx` of `[-1, 1]` diagonal
candidates, in source append order. -/
def Pawn.get_legal_moves (c : Color) (g : Grid) (x y : Int) : Except Unit (List (Int × Int)) :=
  match pawnForward c g x y with
  | .error e => .error e
  | .ok fwd =>
    match pawnDiag c g x y (-1) with
    | .error e => .error e
    | .ok dl =>
      match pawnDiag c g x y 1 with
      | .error e => .error e
      | .ok dr => .ok (fwd ++ (dl ++ dr))

/-- Dynamic dispatch `piece.get_legal_moves(board, x, y)`. -/
def getLegalMoves (p : Piece) (g : Grid) (x y : Int) : Except Unit (List (Int × Int)) :=
  match p.kind with
  | Kind.king => King.get_legal_moves p.color g x y
  | Kind.queen => Queen.get_legal_moves p.color g x y
  | Kind.rook => Rook.get_legal_moves p.color g x y
  | Kind.bishop => Bishop.get_legal_moves p.color g x y
  | Kind.knight => Knight.get_legal_moves p.color g x y
  | Kind.pawn => Pawn.get_legal_moves p.color g x y

/-- The all-`None` 8 by 8 grid that `Board.__new__` builds. -/
def emptyGrid : Grid := List.replicate 8 (List.replicate 8 (none : Cell))

/-- A rank of eight pawns, as set by the `B[1][i] = Pawn('b')` loops. -/
def pawnRank (c : Color) : List Cell := List.replicate 8 (some ⟨c, Kind.pawn⟩)

/-- The back rank, in the source order Rook Knight Bishop Queen King Bishop
Knight Rook. -/
def backRank (c : Color) : List Cell :=
  [some ⟨c, Kind.rook⟩, some ⟨c, Kind.knight⟩, some ⟨c, Kind.bishop⟩,
   some ⟨c, Kind.queen⟩, some ⟨c, Kind.king⟩, some ⟨c, Kind.bishop⟩,
   some ⟨c, Kind.knight⟩, some ⟨c, Kind.rook⟩]

/-- The grid after `Board.init_pieces`: black pawns on row 1, white pawns on
row 6, the black back rank on row 0, the white back rank on row 7. -/
def Board.init_pieces : Grid :=
  (((emptyGrid.set 1 (pawnRank Color.b)).set 6 (pawnRank Color.w)).set 0
      (backRank Color.b)).set 7 (backRank Color.w)

/-- The engine-visible state of `Game`: the singleton board's grid, whose
turn it is, the selected square, and the highlighted legal-move list. -/
structure GameState where
  grid : Grid
  turn : Color
  selected : Option (Int × Int)
  highlight_moves : List (Int × Int)
deriving DecidableEq, Repr

/-- `'b' if self.turn == 'w' else 'w'`. -/
def flipTurn (c : Color) : Color :=
  match c with
  | Color.w => Color.b
  | Color.b => Color.w

/-- `Game.get_valid_moves`. -/
def Game.get_valid_moves (g : Grid) (turn : Color) (x y : Int) : Except Unit (List (Int × Int)) :=
  match cellE g x y with
  | .error e => .error e
  | .ok none => .ok []
  | .ok (some p) => if p.color ≠ turn then .ok [] else getLegalMoves p g x y

/-- One `MOUSEBUTTONDOWN` dispatch of `Game.run`, applied to the clicked
board square `(cx, cy)`.  With a selection: a committed move overwrites the
destination, clears the source and flips the turn, and in every case the
selection and highlights are cleared.  Without one: an own-color piece is
selected and its moves computed; otherwise nothing changes. -/
def Game.handle_click (st : GameState) (cx cy : Int) : Except Unit GameState :=
  match cellE st.grid cx cy with
  | .error e => .error e
  | .ok clicked =>
    match st.selected with
    | some (fx, fy) =>
      match cellE st.grid fx fy with
      | .error e => .error e
      | .ok (some p) =>
        if p.color = st.turn ∧ (cx, cy) ∈ st.highlight_moves then
          match setCell st.grid cx cy (some p) with
          | .error e => .error e
          | .ok g1 =>
            match setCell g1 fx fy none with
            | .error e => .error e
            | .ok g2 => .ok ⟨g2, flipTurn st.turn, none, []⟩
        else .ok ⟨st.grid, st.turn, none, []⟩
      | .ok none => .ok ⟨st.grid, st.turn, none, []⟩
    | none =>
      match clicked with
      | some p =>
        if p.color = st.turn then
          match Game.get_valid_moves st.grid st.turn cx cy with
          | .error e => .error e
          | .ok mv => .ok ⟨st.grid, st.turn, some (cx, cy), mv⟩
        else .ok st
      | none => .ok st

/-- Well-formedness of a grid: eight rows of eight cells, as built by
`Board.__new__`. -/
def WF8 (g : Grid) : Prop :=
  g.length = 8 ∧ ∀ r ∈ g, r.length = 8

instance (g : Grid) : Decidable (WF8 g) := by
  unfold WF8; infer_instance

deriving instance DecidableEq for Except

/-! ### Basic facts about Python indexing on well-formed grids -/

lemma pyGet_eq {α : Type} (l : List α) (i : Int) (h0 : 0 ≤ i) (hl : i < l.length) :
    pyGet l i = l.get? i.toNat := by
  unfold pyGet pyIdxOf
  rw [if_pos ⟨h0, hl⟩]

lemma pySet_eq {α : Type} (l : List α) (i : Int) (a : α) (h0 : 0 ≤ i) (hl : i < l.length) :
    pySet l i a = some (l.set i.toNat a) := by
  unfold pySet pyIdxOf
  rw [if_pos ⟨h0, hl⟩]

lemma WF8.row_ok {g : Grid} (hWF : WF8 g) {y : Int} (h0 : 0 ≤ y) (h8 : y < 8) :
    ∃ row, pyGet g y = some row ∧ row.length = 8 := by
  obtain ⟨hlen, hrows⟩ := hWF
  have hy : y.toNat < g.length := by omega
  refine ⟨g.get ⟨y.toNat, hy⟩, ?_, ?_⟩
  · rw [pyGet_eq g y h0 (by omega), List.get?_eq_get hy]
  · exact hrows _ (List.get?_mem (List.get?_eq_get hy))

lemma cellE_ok {g : Grid} (hWF : WF8 g) {x y : Int} (h : inBp x y) :
    ∃ cl : Cell, cellE g x y = .ok cl := by
  obtain ⟨hx0, hx8, hy0, hy8⟩ := h
  obtain ⟨row, hrow, hrlen⟩ := hWF.row_ok hy0 hy8
  have hxx : x.toNat < row.length := by omega
  refine ⟨row.get ⟨x.toNat, hxx⟩, ?_⟩
  simp only [cellE, hrow, pyGet_eq row x hx0 (by omega), List.get?_eq_get hxx]

/-- Setting an in-bounds cell of a well-formed grid succeeds, stores the
value there, preserves well-formedness, and changes no other in-bounds
cell. -/
lemma setCell_ok {g : Grid} (hWF : WF8 g) {x y : Int} (h : inBp x y) (v : Cell) :
    ∃ g2, setCell g x y v = .ok g2 ∧ WF8 g2 ∧ cellE g2 x y = .ok v ∧
      ∀ a b2 : Int, inBp a b2 → ¬(a = x ∧ b2 = y) → cellE g2 a b2 = cellE g a b2 := by
  obtain ⟨hx0, hx8, hy0, hy8⟩ := h
  obtain ⟨row, hrow, hrlen⟩ := hWF.row_ok hy0 hy8
  obtain ⟨hlen, hrows⟩ := hWF
  have hyN : y.toNat < g.length := by omega
  have hxN : x.toNat < row.length := by omega
  have hrowget : g.get? y.toNat = some row := by
    have h2 := pyGet_eq g y hy0 (by omega)
    rw [← h2, hrow]
  have hset2 : (g.set y.toNat (row.set x.toNat v)).length = 8 := by
    rw [List.length_set]; exact hlen
  have hgety : pyGet (g.set y.toNat (row.set x.toNat v)) y = some (row.set x.toNat v) := by
    rw [pyGet_eq _ y hy0 (by omega), List.get?_set_eq, hrowget]
    rfl
  refine ⟨g.set y.toNat (row.set x.toNat v), ?_, ?_, ?_, ?_⟩
  · simp only [setCell, hrow, pySet_eq row x v hx0 (by omega),
      pySet_eq g y (row.set x.toNat v) hy0 (by omega)]
  · constructor
    · exact hset2
    · intro r hr
      rcases List.mem_or_eq_of_mem_set hr with hmem | heq
      · exact hrows r hmem
      · rw [heq, List.length_set]; exact hrlen
  · have hgetx : pyGet (row.set x.toNat v) x = some v := by
      rw [pyGet_eq _ x hx0 (by rw [List.length_set]; omega), List.get?_set_eq,
        List.get?_eq_get hxN]
      rfl
    simp only [cellE, hgety, hgetx]
  · intro a b2 hab hne
    obtain ⟨ha0, ha8, hb0, hb8⟩ := hab
    by_cases hby : b2 = y
    · subst hby
      have hax : a ≠ x := fun hax => hne ⟨hax, rfl⟩
      have hgeta : pyGet (row.set x.toNat v) a = pyGet row a := by
        rw [pyGet_eq _ a ha0 (by rw [List.length_set]; omega),
          pyGet_eq row a ha0 (by omega)]
        exact List.get?_set_ne _ row (by omega)
      simp only [cellE, hgety, hrow, hgeta]
    · have hgetb : pyGet (g.set y.toNat (row.set x.toNat v)) b2 = pyGet g b2 := by
        rw [pyGet_eq _ b2 hb0 (by omega), pyGet_eq g b2 hb0 (by omega)]
        exact List.get?_set_ne _ g (by omega)
      simp only [cellE, hgetb]

/-! ### Click handling -/

/-- A committed move: with a selection holding an own-color piece and a click
inside the highlighted list, the destination is overwritten with the moved
piece, the source is emptied, the turn flips, the selection clears, and every
other in-bounds square keeps its occupant. -/
lemma handle_click_commit {st : GameState} {fx fy cx cy : Int} {p : Piece}
    (hWF : WF8 st.grid) (hsel : st.selected = some (fx, fy))
    (hfi : inBp fx fy) (hci : inBp cx cy)
    (hp : cellE st.grid fx fy = .ok (some p)) (hcol : p.color = st.turn)
    (hmem : (cx, cy) ∈ st.highlight_moves) (hne : ¬(fx = cx ∧ fy = cy)) :
    ∃ g2, Game.handle_click st cx cy = .ok ⟨g2, flipTurn st.turn, none, []⟩ ∧ WF8 g2 ∧
      cellE g2 cx cy = .ok (some p) ∧ cellE g2 fx fy = .ok none ∧
      ∀ a b2 : Int, inBp a b2 → ¬(a = cx ∧ b2 = cy) → ¬(a = fx ∧ b2 = fy) →
        cellE g2 a b2 = cellE st.grid a b2 := by
  obtain ⟨clicked, hclicked⟩ := cellE_ok hWF hci
  obtain ⟨g1, hg1, hWF1, hc1, hf1⟩ := setCell_ok hWF hci (some p)
  obtain ⟨g2, hg2, hWF2, hc2, hf2⟩ := setCell_ok hWF1 hfi (none : Cell)
  refine ⟨g2, ?_, hWF2, ?_, hc2, ?_⟩
  · simp only [Game.handle_click, hclicked, hsel, hp, hg1, hg2]
    rw [if_pos ⟨hcol, hmem⟩]
  · rw [hf2 cx cy hci (fun hh => hne ⟨hh.1.symm, hh.2.symm⟩)]
    exact hc1
  · intro a b2 hab hnec hnef
    rw [hf2 a b2 hab hnef, hf1 a b2 hab hnec]

/-- A click that does not commit (the guard of the move branch fails) while a
selection with a piece exists: the board and turn are untouched and the
selection clears. -/
lemma handle_click_deselect {st : GameState} {fx fy cx cy : Int} {p : Piece}
    (hWF : WF8 st.grid) (hsel : st.selected = some (fx, fy)) (hci : inBp cx cy)
    (hp : cellE st.grid fx fy = .ok (some p))
    (hnm : ¬(p.color = st.turn ∧ (cx, cy) ∈ st.highlight_moves)) :
    Game.handle_click st cx cy = .ok ⟨st.grid, st.turn, none, []⟩ := by
  obtain ⟨clicked, hclicked⟩ := cellE_ok hWF hci
  simp only [Game.handle_click, hclicked, hsel, hp]
  rw [if_neg hnm]

/-- A click on an own-color piece with nothing selected: the square is
selected and its generated moves highlighted. -/
lemma handle_click_select {st : GameState} {cx cy : Int} {p : Piece}
    {mv : List (Int × Int)} (hsel : st.selected = none)
    (hclicked : cellE st.grid cx cy = .ok (some p)) (hcol : p.color = st.turn)
    (hmv : getLegalMoves p st.grid cx cy = .ok mv) :
    Game.handle_click st cx cy = .ok ⟨st.grid, st.turn, some (cx, cy), mv⟩ := by
  have hgv : Game.get_valid_moves st.grid st.turn cx cy = .ok mv := by
    simp only [Game.get_valid_moves, hclicked]
    rw [if_neg (show ¬(p.color ≠ st.turn) from fun hh => hh hcol)]
    exact hmv
  simp only [Game.handle_click, hclicked, hsel, hgv]
  rw [if_pos hcol]

/-- C3.  From a `Selected` state whose selection holds a piece of the
current turn's color (the reachable-state invariant; the selected square is
never in its own move list): a click inside the highlighted move list moves
that piece onto the clicked square, empties the selected square, flips the
turn and returns to `Idle`; a click outside it returns to `Idle` with the
board and the turn completely unchanged. -/
theorem selected_click_spec (st : GameState) (fx fy cx cy : Int) (p : Piece)
    (hWF : WF8 st.grid) (hsel : st.selected = some (fx, fy))
    (hfi : inBp fx fy) (hci : inBp cx cy)
    (hp : cellE st.grid fx fy = .ok (some p)) (hcol : p.color = st.turn)
    (hinv : (fx, fy) ∉ st.highlight_moves) :
    ((cx, cy) ∈ st.highlight_moves →
      ∃ g2, Game.handle_click st cx cy = .ok ⟨g2, flipTurn st.turn, none, []⟩ ∧
        cellE g2 cx cy = .ok (some p) ∧ cellE g2 fx fy = .ok none) ∧
    ((cx, cy) ∉ st.highlight_moves →
      Game.handle_click st cx cy = .ok ⟨st.grid, st.turn, none, []⟩) := by
  constructor
  · intro hmem
    have hne : ¬(fx = cx ∧ fy = cy) := by
      rintro ⟨rfl, rfl⟩
      exact hinv hmem
    obtain ⟨g2, hclick, _, hcell1, hcell2, _⟩ :=
      handle_click_commit hWF hsel hfi hci hp hcol hmem hne
    exact ⟨g2, hclick, hcell1, hcell2⟩
  · intro hnm
    exact handle_click_deselect hWF hsel hci hp (fun hh => hnm hh.2)

/-- C3 witness: the initial board with the white pawn on square (0,6)
selected; clicking (0,5) commits the move, clicking (7,7) deselects. -/
theorem selected_click_spec_witness :
    (((0 : Int), (5 : Int)) ∈ [((0 : Int), (5 : Int)), (0, 4)] →
      ∃ g2, Game.handle_click ⟨Board.init_pieces, Color.w, some (0, 6), [(0, 5), (0, 4)]⟩ 0 5
          = .ok ⟨g2, flipTurn Color.w, none, []⟩ ∧
        cellE g2 0 5 = .ok (some ⟨Color.w, Kind.pawn⟩) ∧ cellE g2 0 6 = .ok none) ∧
    (((0 : Int), (5 : Int)) ∉ [((0 : Int), (5 : Int)), (0, 4)] →
      Game.handle_click ⟨Board.init_pieces, Color.w, some (0, 6), [(0, 5), (0, 4)]⟩ 0 5
        = .ok ⟨Board.init_pieces, Color.w, none, []⟩) :=
  selected_click_spec ⟨Board.init_pieces, Color.w, some (0, 6), [(0, 5), (0, 4)]⟩
    0 6 0 5 ⟨Color.w, Kind.pawn⟩ (by decide) rfl (by decide) (by decide) rfl rfl
    (by decide)

/-- C10.  Committing a move from the selected square to a highlighted
destination changes exactly those two squares: the destination comes to hold
the moved piece (any previous occupant is replaced), the source becomes
empty, and every other in-bounds square keeps its occupant. -/
theorem move_commit_frame (st : GameState) (fx fy cx cy : Int) (p : Piece)
    (hWF : WF8 st.grid) (hsel : st.selected = some (fx, fy))
    (hfi : inBp fx fy) (hci : inBp cx cy)
    (hp : cellE st.grid fx fy = .ok (some p)) (hcol : p.color = st.turn)
    (hmem : (cx, cy) ∈ st.highlight_moves) (hne : ¬(fx = cx ∧ fy = cy)) :
    ∃ g2, Game.handle_click st cx cy = .ok ⟨g2, flipTurn st.turn, none, []⟩ ∧
      cellE g2 cx cy = .ok (some p) ∧ cellE g2 fx fy = .ok none ∧
      ∀ a b2 : Int, inBp a b2 → ¬(a = cx ∧ b2 = cy) → ¬(a = fx ∧ b2 = fy) →
        cellE g2 a b2 = cellE st.grid a b2 := by
  obtain ⟨g2, hclick, _, hcell1, hcell2, hframe⟩ :=
    handle_click_commit hWF hsel hfi hci hp hcol hmem hne
  exact ⟨g2, hclick, hcell1, hcell2, hframe⟩

/-- C10 witness: committing the white pawn's move from (0,6) to (0,5) on the
initial board. -/
theorem move_commit_frame_witness :
    ∃ g2, Game.handle_click ⟨Board.init_pieces, Color.w, some (0, 6), [(0, 5), (0, 4)]⟩ 0 5
        = .ok ⟨g2, flipTurn Color.w, none, []⟩ ∧
      cellE g2 0 5 = .ok (some ⟨Color.w, Kind.pawn⟩) ∧ cellE g2 0 6 = .ok none ∧
      ∀ a b2 : Int, inBp a b2 → ¬(a = 0 ∧ b2 = 5) → ¬(a = 0 ∧ b2 = 6) →
        cellE g2 a b2 = cellE Board.init_pieces a b2 :=
  move_commit_frame ⟨Board.init_pieces, Color.w, some (0, 6), [(0, 5), (0, 4)]⟩
    0 6 0 5 ⟨Color.w, Kind.pawn⟩ (by decide) rfl (by decide) (by decide) rfl rfl
    (by decide) (by decide)

/-- C8.  With nothing selected, clicking an empty square or one holding a
piece of the other color leaves the whole state (board, turn, selection and
highlight list) unchanged: no `Selected` state arises. -/
theorem idle_wrong_color_noop (st : GameState) (cx cy : Int) (cl : Cell)
    (hsel : st.selected = none) (hclicked : cellE st.grid cx cy = .ok cl)
    (h : cl = none ∨ ∃ p : Piece, cl = some p ∧ p.color ≠ st.turn) :
    Game.handle_click st cx cy = .ok st := by
  rcases h with rfl | ⟨p, rfl, hne⟩
  · simp only [Game.handle_click, hclicked, hsel]
  · simp only [Game.handle_click, hclicked, hsel]
    rw [if_neg hne]

/-- C8 witness: from the initial position with White to move and nothing
selected, clicking the black rook at (0,0) changes nothing. -/
theorem idle_wrong_color_noop_witness :
    Game.handle_click ⟨Board.init_pieces, Color.w, none, []⟩ 0 0
      = .ok ⟨Board.init_pieces, Color.w, none, []⟩ :=
  idle_wrong_color_noop ⟨Board.init_pieces, Color.w, none, []⟩ 0 0
    (some ⟨Color.b, Kind.rook⟩) rfl rfl
    (Or.inr ⟨⟨Color.b, Kind.rook⟩, rfl, by decide⟩)

/-- C4 counterexample: a reachable `Selected` state (shown reachable by the
first equation) in which clicking the selected square (0,6) twice ends
re-selected, not `Idle`: the first click deselects, the second selects the
same white pawn again.  The board is never mutated. -/
theorem double_click_counterexample :
    Game.handle_click ⟨Board.init_pieces, Color.w, none, []⟩ 0 6
        = .ok ⟨Board.init_pieces, Color.w, some (0, 6), [(0, 5), (0, 4)]⟩ ∧
    Game.handle_click ⟨Board.init_pieces, Color.w, some (0, 6), [(0, 5), (0, 4)]⟩ 0 6
        = .ok ⟨Board.init_pieces, Color.w, none, []⟩ ∧
    Game.handle_click ⟨Board.init_pieces, Color.w, none, []⟩ 0 6
        = .ok ⟨Board.init_pieces, Color.w, some (0, 6), [(0, 5), (0, 4)]⟩ ∧
    (some ((0 : Int), (6 : Int)) ≠ none) := by
  refine ⟨rfl, rfl, rfl, by decide⟩

/-- C4 amended.  In a reachable `Selected` state (selection holds an
own-color piece, the highlight list is that piece's generated moves, and the
selected square is not among them), clicking the selected square never
mutates the board: the first click ends in `Idle`, and a second click on the
same square re-selects it, ending in `Selected` with board and turn still
unchanged. -/
theorem double_click_spec (st : GameState) (fx fy : Int) (p : Piece)
    (hWF : WF8 st.grid) (hsel : st.selected = some (fx, fy)) (hfi : inBp fx fy)
    (hp : cellE st.grid fx fy = .ok (some p)) (hcol : p.color = st.turn)
    (hmv : getLegalMoves p st.grid fx fy = .ok st.highlight_moves)
    (hinv : (fx, fy) ∉ st.highlight_moves) :
    Game.handle_click st fx fy = .ok ⟨st.grid, st.turn, none, []⟩ ∧
    Game.handle_click ⟨st.grid, st.turn, none, []⟩ fx fy
      = .ok ⟨st.grid, st.turn, some (fx, fy), st.highlight_moves⟩ :=
  ⟨handle_click_deselect hWF hsel hfi hp (fun hh => hinv hh.2),
   handle_click_select rfl hp hcol hmv⟩

/-- C4 amended witness: the white pawn selected on (0,6) of the initial
board. -/
theorem double_click_spec_witness :
    Game.handle_click ⟨Board.init_pieces, Color.w, some (0, 6), [(0, 5), (0, 4)]⟩ 0 6
        = .ok ⟨Board.init_pieces, Color.w, none, []⟩ ∧
    Game.handle_click ⟨Board.init_pieces, Color.w, none, []⟩ 0 6
        = .ok ⟨Board.init_pieces, Color.w, some (0, 6), [(0, 5), (0, 4)]⟩ :=
  double_click_spec ⟨Board.init_pieces, Color.w, some (0, 6), [(0, 5), (0, 4)]⟩
    0 6 ⟨Color.w, Kind.pawn⟩ (by decide) rfl (by decide) rfl rfl rfl (by decide)

/-! ### The unguarded pawn forward read -/

/-- C1 failing input.  A black pawn on (0,7) — its far rank, reachable since
pawns never promote — evaluates `board[y - dir][x]` with `y - dir = 8`, an
out-of-range row index: move generation raises `IndexError` instead of
bounds-checking first.  The board contents are irrelevant; the empty board
already exhibits it. -/
theorem pawn_far_rank_error :
    Pawn.get_legal_moves Color.b emptyGrid 0 7 = .error () := rfl

/-- C2 failing input.  A white pawn on (0,0) — its far rank — reads
`board[-1][0]`, which Python wraps to row 7, and returns the move `(0, -1)`,
a coordinate outside the board. -/
theorem pawn_out_of_bounds_move :
    Pawn.get_legal_moves Color.w emptyGrid 0 0 = .ok [(0, -1)] ∧ ¬ inBp 0 (-1) :=
  ⟨rfl, by decide⟩

/-! ### The initial arrangement -/

/-- The back-rank class order of `Board.init_pieces`. -/
def backOrder : List Kind :=
  [Kind.rook, Kind.knight, Kind.bishop, Kind.queen, Kind.king, Kind.bishop,
   Kind.knight, Kind.rook]

/-- C9.  The initial board: eight black pawns on row 1 and eight white pawns
on row 6 (each color's second rank), the back ranks at rows 0 (Black) and 7
(White) in the order Rook Knight Bishop Queen King Bishop Knight Rook, all
32 squares of rows 2 to 5 empty; in particular file 0 of White's back rank
holds a white Rook. -/
theorem initial_board_layout :
    (∀ i : Fin 8,
      cellE Board.init_pieces (i : Int) 1 = .ok (some ⟨Color.b, Kind.pawn⟩) ∧
      cellE Board.init_pieces (i : Int) 6 = .ok (some ⟨Color.w, Kind.pawn⟩) ∧
      cellE Board.init_pieces (i : Int) 0
        = .ok (some ⟨Color.b, backOrder.getD i.val Kind.pawn⟩) ∧
      cellE Board.init_pieces (i : Int) 7
        = .ok (some ⟨Color.w, backOrder.getD i.val Kind.pawn⟩) ∧
      cellE Board.init_pieces (i : Int) 2 = .ok none ∧
      cellE Board.init_pieces (i : Int) 3 = .ok none ∧
      cellE Board.init_pieces (i : Int) 4 = .ok none ∧
      cellE Board.init_pieces (i : Int) 5 = .ok none) ∧
    cellE Board.init_pieces 0 7 = .ok (some ⟨Color.w, Kind.rook⟩) := by
  decide

/-! ### Ray casting -/

lemma ray_ok (c : Color) {g : Grid} (dx dy : Int) (hWF : WF8 g) :
    ∀ (fuel : Nat) (sx sy : Int), ∃ l, ray c g dx dy sx sy fuel = .ok l := by
  intro fuel
  induction fuel with
  | zero => exact fun sx sy => ⟨[], rfl⟩
  | succ f ih =>
    intro sx sy
    by_cases hin : inBp sx sy
    · obtain ⟨cl, hcl⟩ := cellE_ok hWF hin
      cases cl with
      | none =>
        obtain ⟨rest, hrest⟩ := ih (sx + dx) (sy + dy)
        refine ⟨(sx, sy) :: rest, ?_⟩
        simp only [ray]
        rw [if_pos hin]
        simp only [hcl, hrest]
      | some p =>
        by_cases hpc : p.color ≠ c
        · refine ⟨[(sx, sy)], ?_⟩
          simp only [ray]
          rw [if_pos hin]
          simp only [hcl]
          rw [if_pos hpc]
        · refine ⟨[], ?_⟩
          simp only [ray]
          rw [if_pos hin]
          simp only [hcl]
          rw [if_neg hpc]
    · refine ⟨[], ?_⟩
      simp only [ray]
      rw [if_neg hin]

lemma rayAll_ok {c : Color} {g : Grid} (hWF : WF8 g) (x y : Int) :
    ∀ dirs : List (Int × Int), ∃ l, rayAll c g x y dirs = .ok l := by
  intro dirs
  induction dirs with
  | nil => exact ⟨[], rfl⟩
  | cons d rest ih =>
    obtain ⟨dx, dy⟩ := d
    obtain ⟨here, hhere⟩ := ray_ok c dx dy hWF 16 (x + dx) (y + dy)
    obtain ⟨more, hmore⟩ := ih
    exact ⟨here ++ more, by simp only [rayAll, hhere, hmore]⟩

/-- C5.  On any 8 by 8 board the Queen's generated moves are exactly the
concatenation of the Rook's and the Bishop's from the same square, so the
move sets agree: membership in the Queen list is membership in the Rook list
or in the Bishop list. -/
theorem queen_is_rook_or_bishop (c : Color) (g : Grid) (hWF : WF8 g) (x y : Int) :
    ∃ rl bl, Rook.get_legal_moves c g x y = .ok rl ∧
      Bishop.get_legal_moves c g x y = .ok bl ∧
      Queen.get_legal_moves c g x y = .ok (rl ++ bl) ∧
      ∀ m : Int × Int, m ∈ rl ++ bl ↔ (m ∈ rl ∨ m ∈ bl) := by
  obtain ⟨rl, hrl⟩ := rayAll_ok hWF x y rookDirections
  obtain ⟨bl, hbl⟩ := rayAll_ok hWF x y bishopDirections
  refine ⟨rl, bl, hrl, hbl, ?_, fun m => List.mem_append⟩
  simp only [Queen.get_legal_moves, Rook.get_legal_moves, Bishop.get_legal_moves, hrl, hbl]

/-- C5 witness: the white queen square (3,7) of the initial board. -/
theorem queen_is_rook_or_bishop_witness :
    ∃ rl bl, Rook.get_legal_moves Color.w Board.init_pieces 3 7 = .ok rl ∧
      Bishop.get_legal_moves Color.w Board.init_pieces 3 7 = .ok bl ∧
      Queen.get_legal_moves Color.w Board.init_pieces 3 7 = .ok (rl ++ bl) ∧
      ∀ m : Int × Int, m ∈ rl ++ bl ↔ (m ∈ rl ∨ m ∈ bl) :=
  queen_is_rook_or_bishop Color.w Board.init_pieces (by decide) 3 7

lemma stepCast (s d : Int) (j : Nat) :
    s + ((j + 1 : Nat) : Int) * d = s + d + (j : Int) * d := by
  push_cast; ring

lemma coord_between (d : Int) (hd : d = -1 ∨ d = 0 ∨ d = 1) (s : Int) (k j : Nat)
    (hjk : j ≤ k) (h0 : 0 ≤ s) (h8 : s < 8) (hk0 : 0 ≤ s + (k : Int) * d)
    (hk8 : s + (k : Int) * d < 8) : 0 ≤ s + (j : Int) * d ∧ s + (j : Int) * d < 8 := by
  rcases hd with rfl | rfl | rfl <;> constructor <;> omega

/-- Every square a ray collects passed the bounds guard. -/
lemma ray_elems_inB {c : Color} {g : Grid} {dx dy : Int} :
    ∀ (fuel : Nat) (sx sy : Int) (l : List (Int × Int)),
      ray c g dx dy sx sy fuel = .ok l → ∀ e ∈ l, inBp e.1 e.2 := by
  intro fuel
  induction fuel with
  | zero =>
    intro sx sy l hl e he
    simp only [ray] at hl
    injection hl with hl2
    subst hl2
    simp at he
  | succ f ih =>
    intro sx sy l hl e he
    simp only [ray] at hl
    by_cases hin : inBp sx sy
    · rw [if_pos hin] at hl
      cases hcl : cellE g sx sy with
      | error er => simp only [hcl] at hl; exact absurd hl (by simp)
      | ok cl =>
        simp only [hcl] at hl
        cases cl with
        | none =>
          cases hr : ray c g dx dy (sx + dx) (sy + dy) f with
          | error er => simp only [hr] at hl; exact absurd hl (by simp)
          | ok rest =>
            simp only [hr] at hl
            injection hl with hl2
            subst hl2
            rcases List.mem_cons.mp he with rfl | he2
            · exact hin
            · exact ih (sx + dx) (sy + dy) rest hr e he2
        | some p =>
          dsimp only at hl
          by_cases hpc : p.color ≠ c
          · rw [if_pos hpc] at hl
            injection hl with hl2
            subst hl2
            rcases List.mem_singleton.mp he with rfl
            exact hin
          · rw [if_neg hpc] at hl
            injection hl with hl2
            subst hl2
            simp at he
    · rw [if_neg hin] at hl
      injection hl with hl2
      subst hl2
      simp at he

/-- Every square a ray starting at `(sx, sy)` collects lies on the ray. -/
lemma ray_elems_form {c : Color} {g : Grid} {dx dy : Int} :
    ∀ (fuel : Nat) (sx sy : Int) (l : List (Int × Int)),
      ray c g dx dy sx sy fuel = .ok l →
      ∀ e ∈ l, ∃ m : Nat, e = (sx + (m : Int) * dx, sy + (m : Int) * dy) := by
  intro fuel
  induction fuel with
  | zero =>
    intro sx sy l hl e he
    simp only [ray] at hl
    injection hl with hl2
    subst hl2
    simp at he
  | succ f ih =>
    intro sx sy l hl e he
    simp only [ray] at hl
    by_cases hin : inBp sx sy
    · rw [if_pos hin] at hl
      cases hcl : cellE g sx sy with
      | error er => simp only [hcl] at hl; exact absurd hl (by simp)
      | ok cl =>
        simp only [hcl] at hl
        cases cl with
        | none =>
          cases hr : ray c g dx dy (sx + dx) (sy + dy) f with
          | error er => simp only [hr] at hl; exact absurd hl (by simp)
          | ok rest =>
            simp only [hr] at hl
            injection hl with hl2
            subst hl2
            rcases List.mem_cons.mp he with rfl | he2
            · exact ⟨0, by simp⟩
            · obtain ⟨m, hm⟩ := ih (sx + dx) (sy + dy) rest hr e he2
              exact ⟨m + 1, by rw [hm, stepCast sx dx m, stepCast sy dy m]⟩
        | some p =>
          dsimp only at hl
          by_cases hpc : p.color ≠ c
          · rw [if_pos hpc] at hl
            injection hl with hl2
            subst hl2
            rcases List.mem_singleton.mp he with rfl
            exact ⟨0, by simp⟩
          · rw [if_neg hpc] at hl
            injection hl with hl2
            subst hl2
            simp at he
    · rw [if_neg hin] at hl
      injection hl with hl2
      subst hl2
      simp at he

/-- Membership characterization for the ray walk, indexed from its first
candidate square: the square `k` steps further is collected exactly when the
whole prefix is in bounds, every strictly earlier square is empty, and the
square itself is empty or holds an opposing piece. -/
lemma ray_mem_iff {c : Color} {g : Grid} {dx dy : Int}
    (hdx : dx = -1 ∨ dx = 0 ∨ dx = 1) (hdy : dy = -1 ∨ dy = 0 ∨ dy = 1)
    (hd0 : ¬(dx = 0 ∧ dy = 0)) :
    ∀ (k fuel : Nat) (sx sy : Int), k < fuel →
    ∀ l, ray c g dx dy sx sy fuel = .ok l →
    ((sx + (k : Int) * dx, sy + (k : Int) * dy) ∈ l ↔
      (∀ j : Nat, j ≤ k → inBp (sx + (j : Int) * dx) (sy + (j : Int) * dy)) ∧
      (∀ j : Nat, j < k → cellE g (sx + (j : Int) * dx) (sy + (j : Int) * dy) = .ok none) ∧
      (cellE g (sx + (k : Int) * dx) (sy + (k : Int) * dy) = .ok none ∨
        ∃ p : Piece, cellE g (sx + (k : Int) * dx) (sy + (k : Int) * dy)
            = .ok (some p) ∧ p.color ≠ c)) := by
  intro k
  induction k with
  | zero =>
    intro fuel sx sy hk l hl
    obtain ⟨f, rfl⟩ : ∃ f, fuel = f + 1 := ⟨fuel - 1, by omega⟩
    simp only [ray] at hl
    have e1 : sx + ((0 : Nat) : Int) * dx = sx := by push_cast; ring
    have e2 : sy + ((0 : Nat) : Int) * dy = sy := by push_cast; ring
    by_cases hin : inBp sx sy
    · rw [if_pos hin] at hl
      cases hcl : cellE g sx sy with
      | error er => simp only [hcl] at hl; exact absurd hl (by simp)
      | ok cl =>
        simp only [hcl] at hl
        cases cl with
        | none =>
          cases hr : ray c g dx dy (sx + dx) (sy + dy) f with
          | error er => simp only [hr] at hl; exact absurd hl (by simp)
          | ok rest =>
            simp only [hr] at hl
            injection hl with hl2
            subst hl2
            apply iff_of_true
            · exact List.mem_cons.mpr (Or.inl (by rw [Prod.mk.injEq]; exact ⟨e1, e2⟩))
            · refine ⟨?_, ?_, Or.inl ?_⟩
              · intro j hj
                have hj0 : j = 0 := Nat.le_zero.mp hj
                subst hj0
                rw [e1, e2]
                exact hin
              · intro j hj
                exact absurd hj (Nat.not_lt_zero j)
              · rw [e1, e2]
                exact hcl
        | some p =>
          dsimp only at hl
          by_cases hpc : p.color ≠ c
          · rw [if_pos hpc] at hl
            injection hl with hl2
            subst hl2
            apply iff_of_true
            · exact List.mem_singleton.mpr (by rw [Prod.mk.injEq]; exact ⟨e1, e2⟩)
            · refine ⟨?_, ?_, Or.inr ⟨p, ?_, hpc⟩⟩
              · intro j hj
                have hj0 : j = 0 := Nat.le_zero.mp hj
                subst hj0
                rw [e1, e2]
                exact hin
              · intro j hj
                exact absurd hj (Nat.not_lt_zero j)
              · rw [e1, e2]
                exact hcl
          · rw [if_neg hpc] at hl
            injection hl with hl2
            subst hl2
            apply iff_of_false
            · simp
            · rintro ⟨_, _, h3⟩
              rw [e1, e2, hcl] at h3
              rcases h3 with h3 | ⟨q, hq, hqc⟩
              · exact absurd h3 (by simp)
              · apply hpc
                have hpq : p = q := by
                  injection hq with hq2
                  injection hq2
                rw [hpq]
                exact hqc
    · rw [if_neg hin] at hl
      injection hl with hl2
      subst hl2
      apply iff_of_false
      · simp
      · rintro ⟨hA, _, _⟩
        apply hin
        have h0 := hA 0 (Nat.zero_le _)
        rw [e1, e2] at h0
        exact h0
  | succ k ih =>
    intro fuel sx sy hk l hl
    obtain ⟨f, rfl⟩ : ∃ f, fuel = f + 1 := ⟨fuel - 1, by omega⟩
    have hkf : k < f := by omega
    simp only [ray] at hl
    have e1 : sx + ((0 : Nat) : Int) * dx = sx := by push_cast; ring
    have e2 : sy + ((0 : Nat) : Int) * dy = sy := by push_cast; ring
    have hne_head :
        ¬((sx + ((k + 1 : Nat) : Int) * dx, sy + ((k + 1 : Nat) : Int) * dy) = (sx, sy)) := by
      intro heq
      rw [Prod.mk.injEq] at heq
      obtain ⟨h1, h2⟩ := heq
      have hdx0 : dx = 0 := by rcases hdx with rfl | rfl | rfl <;> omega
      have hdy0 : dy = 0 := by rcases hdy with rfl | rfl | rfl <;> omega
      exact hd0 ⟨hdx0, hdy0⟩
    by_cases hin : inBp sx sy
    · rw [if_pos hin] at hl
      cases hcl : cellE g sx sy with
      | error er => simp only [hcl] at hl; exact absurd hl (by simp)
      | ok cl =>
        simp only [hcl] at hl
        cases cl with
        | none =>
          cases hr : ray c g dx dy (sx + dx) (sy + dy) f with
          | error er => simp only [hr] at hl; exact absurd hl (by simp)
          | ok rest =>
            simp only [hr] at hl
            injection hl with hl2
            subst hl2
            have ihr := ih f (sx + dx) (sy + dy) hkf rest hr
            constructor
            · intro hmem
              rcases List.mem_cons.mp hmem with heq | hmem2
              · exact absurd heq hne_head
              · rw [stepCast sx dx k, stepCast sy dy k] at hmem2
                obtain ⟨hA, hB, hC⟩ := ihr.mp hmem2
                refine ⟨?_, ?_, ?_⟩
                · intro j hj
                  cases j with
                  | zero =>
                    rw [e1, e2]
                    exact hin
                  | succ j2 =>
                    have h2 := hA j2 (by omega)
                    rw [stepCast sx dx j2, stepCast sy dy j2]
                    exact h2
                · intro j hj
                  cases j with
                  | zero =>
                    rw [e1, e2]
                    exact hcl
                  | succ j2 =>
                    have h2 := hB j2 (by omega)
                    rw [stepCast sx dx j2, stepCast sy dy j2]
                    exact h2
                · rw [stepCast sx dx k, stepCast sy dy k]
                  exact hC
            · rintro ⟨hA, hB, hC⟩
              apply List.mem_cons.mpr
              right
              rw [stepCast sx dx k, stepCast sy dy k]
              apply ihr.mpr
              refine ⟨?_, ?_, ?_⟩
              · intro j hj
                have h2 := hA (j + 1) (by omega)
                rw [stepCast sx dx j, stepCast sy dy j] at h2
                exact h2
              · intro j hj
                have h2 := hB (j + 1) (by omega)
                rw [stepCast sx dx j, stepCast sy dy j] at h2
                exact h2
              · have h2 := hC
                rw [stepCast sx dx k, stepCast sy dy k] at h2
                exact h2
        | some p =>
          dsimp only at hl
          by_cases hpc : p.color ≠ c
          · rw [if_pos hpc] at hl
            injection hl with hl2
            subst hl2
            apply iff_of_false
            · intro hmem
              exact hne_head (List.mem_singleton.mp hmem)
            · rintro ⟨_, hB, _⟩
              have h0 := hB 0 (Nat.succ_pos k)
              rw [e1, e2, hcl] at h0
              exact absurd h0 (by simp)
          · rw [if_neg hpc] at hl
            injection hl with hl2
            subst hl2
            apply iff_of_false
            · simp
            · rintro ⟨_, hB, _⟩
              have h0 := hB 0 (Nat.succ_pos k)
              rw [e1, e2, hcl] at h0
              exact absurd h0 (by simp)
    · rw [if_neg hin] at hl
      injection hl with hl2
      subst hl2
      apply iff_of_false
      · simp
      · rintro ⟨hA, _, _⟩
        apply hin
        have h0 := hA 0 (Nat.zero_le _)
        rw [e1, e2] at h0
        exact h0

/-- The claim's ray condition for the square `k` steps along `(dx, dy)` from
a piece on `(x, y)`: the target is on the board, every strictly earlier
square of the ray is empty, and the target is empty or holds an opposing
piece. -/
def rayCond (c : Color) (g : Grid) (x y dx dy : Int) (k : Nat) : Prop :=
  inBp (x + (k : Int) * dx) (y + (k : Int) * dy) ∧
  (∀ j : Nat, 1 ≤ j → j < k →
    cellE g (x + (j : Int) * dx) (y + (j : Int) * dy) = .ok none) ∧
  (cellE g (x + (k : Int) * dx) (y + (k : Int) * dy) = .ok none ∨
    ∃ p : Piece, cellE g (x + (k : Int) * dx) (y + (k : Int) * dy)
        = .ok (some p) ∧ p.color ≠ c)

/-- The single ray started at `(x + dx, y + dy)` collects the square `k ≥ 1`
steps from `(x, y)` exactly under `rayCond`. -/
lemma ray_spec_origin {c : Color} {g : Grid} (hWF : WF8 g) {x y dx dy : Int}
    (hxy : inBp x y) (hdx : dx = -1 ∨ dx = 0 ∨ dx = 1)
    (hdy : dy = -1 ∨ dy = 0 ∨ dy = 1) (hd0 : ¬(dx = 0 ∧ dy = 0))
    (k : Nat) (hk : 1 ≤ k) :
    ∃ l, ray c g dx dy (x + dx) (y + dy) 16 = .ok l ∧
      ((x + (k : Int) * dx, y + (k : Int) * dy) ∈ l ↔ rayCond c g x y dx dy k) := by
  obtain ⟨l, hl⟩ := ray_ok c dx dy hWF 16 (x + dx) (y + dy)
  refine ⟨l, hl, ?_⟩
  obtain ⟨k2, rfl⟩ : ∃ k2, k = k2 + 1 := ⟨k - 1, by omega⟩
  by_cases htgt : inBp (x + ((k2 + 1 : Nat) : Int) * dx) (y + ((k2 + 1 : Nat) : Int) * dy)
  · have hk16 : k2 < 16 := by
      obtain ⟨hx0, hx8, hy0, hy8⟩ := hxy
      obtain ⟨ht1, ht2, ht3, ht4⟩ := htgt
      rcases hdx with rfl | rfl | rfl <;> rcases hdy with rfl | rfl | rfl <;> omega
    have hiff := ray_mem_iff hdx hdy hd0 k2 16 (x + dx) (y + dy) hk16 l hl
    rw [stepCast x dx k2, stepCast y dy k2, hiff]
    unfold rayCond
    constructor
    · rintro ⟨hA, hB, hC⟩
      refine ⟨?_, ?_, ?_⟩
      · have h2 := hA k2 (Nat.le_refl _)
        rw [← stepCast x dx k2, ← stepCast y dy k2] at h2
        exact h2
      · intro j hj1 hjk
        obtain ⟨j2, rfl⟩ : ∃ j2, j = j2 + 1 := ⟨j - 1, by omega⟩
        have h2 := hB j2 (by omega)
        rw [← stepCast x dx j2, ← stepCast y dy j2] at h2
        exact h2
      · have h2 := hC
        rw [← stepCast x dx k2, ← stepCast y dy k2] at h2
        exact h2
    · rintro ⟨hT, hB, hC⟩
      refine ⟨?_, ?_, ?_⟩
      · intro j hj
        rw [← stepCast x dx j, ← stepCast y dy j]
        obtain ⟨hx0, hx8, hy0, hy8⟩ := hxy
        obtain ⟨ht1, ht2, ht3, ht4⟩ := hT
        have hbx := coord_between dx hdx x (k2 + 1) (j + 1) (by omega) hx0 hx8 ht1 ht2
        have hby := coord_between dy hdy y (k2 + 1) (j + 1) (by omega) hy0 hy8 ht3 ht4
        exact ⟨hbx.1, hbx.2, hby.1, hby.2⟩
      · intro j hj
        have h2 := hB (j + 1) (by omega) (by omega)
        rw [stepCast x dx j, stepCast y dy j] at h2
        exact h2
      · have h2 := hC
        rw [stepCast x dx k2, stepCast y dy k2] at h2
        exact h2
  · apply iff_of_false
    · intro hmem
      exact htgt (ray_elems_inB 16 (x + dx) (y + dy) l hl _ hmem)
    · rintro ⟨hT, _, _⟩
      exact htgt hT

/-- Membership in the direction loop's accumulated list is membership in one
of the per-direction rays. -/
lemma rayAll_mem {c : Color} {g : Grid} (hWF : WF8 g) (x y : Int) :
    ∀ dirs : List (Int × Int), ∃ l, rayAll c g x y dirs = .ok l ∧
      ∀ m : Int × Int, m ∈ l ↔ ∃ dd ∈ dirs, ∃ ld,
        ray c g dd.1 dd.2 (x + dd.1) (y + dd.2) 16 = .ok ld ∧ m ∈ ld := by
  intro dirs
  induction dirs with
  | nil => exact ⟨[], rfl, by simp⟩
  | cons d rest ih =>
    obtain ⟨dx, dy⟩ := d
    obtain ⟨here, hhere⟩ := ray_ok c dx dy hWF 16 (x + dx) (y + dy)
    obtain ⟨more, hmore, hmem⟩ := ih
    refine ⟨here ++ more, by simp only [rayAll, hhere, hmore], ?_⟩
    intro m
    rw [List.mem_append]
    constructor
    · rintro (hm | hm)
      · exact ⟨(dx, dy), List.mem_cons_self _ _, here, hhere, hm⟩
      · obtain ⟨dd, hdd, ld, hld, hm2⟩ := (hmem m).mp hm
        exact ⟨dd, List.mem_cons_of_mem _ hdd, ld, hld, hm2⟩
    · rintro ⟨dd, hdd, ld, hld, hm2⟩
      rcases List.mem_cons.mp hdd with rfl | hdd2
      · left
        have hld2 : Except.ok (ε := Unit) here = Except.ok ld := by
          rw [← hhere, ← hld]
        injection hld2 with hl2
        rw [hl2]
        exact hm2
      · right
        exact (hmem m).mpr ⟨dd, hdd2, ld, hld, hm2⟩

/-- Distinct directions of the eight rook/bishop rays from one square never
produce the same target square. -/
lemma dirs_exclusive (dx dy dx2 dy2 : Int)
    (h1 : (dx, dy) ∈ rookDirections ++ bishopDirections)
    (h2 : (dx2, dy2) ∈ rookDirections ++ bishopDirections)
    (hne : ¬(dx2 = dx ∧ dy2 = dy)) (x y : Int) (k m : Nat) (hk : 1 ≤ k) :
    ¬(x + (k : Int) * dx = x + dx2 + (m : Int) * dx2 ∧
      y + (k : Int) * dy = y + dy2 + (m : Int) * dy2) := by
  simp only [rookDirections, bishopDirections, List.mem_append, List.mem_cons,
    List.not_mem_nil, or_false] at h1 h2
  rintro ⟨e1, e2⟩
  rcases h1 with (h | h | h | h) | (h | h | h | h) <;>
    rcases h2 with (h2a | h2a | h2a | h2a) | (h2a | h2a | h2a | h2a) <;>
    (injection h with ha hb; injection h2a with hc hd2; subst ha; subst hb;
      subst hc; subst hd2; omega)

/-- The move list of a rook- or bishop-style direction loop contains the
square `k ≥ 1` steps along a listed direction exactly under `rayCond`. -/
lemma rayAll_spec {c : Color} {g : Grid} (hWF : WF8 g) {x y : Int}
    (hxy : inBp x y) (dirs : List (Int × Int))
    (hdirs : ∀ dd ∈ dirs, dd ∈ rookDirections ++ bishopDirections)
    {dx dy : Int} (hd : (dx, dy) ∈ dirs) (k : Nat) (hk : 1 ≤ k) :
    ∃ l, rayAll c g x y dirs = .ok l ∧
      ((x + (k : Int) * dx, y + (k : Int) * dy) ∈ l ↔ rayCond c g x y dx dy k) := by
  have hdu : (dx, dy) ∈ rookDirections ++ bishopDirections := hdirs _ hd
  have hunit : (dx = -1 ∨ dx = 0 ∨ dx = 1) ∧ (dy = -1 ∨ dy = 0 ∨ dy = 1) ∧
      ¬(dx = 0 ∧ dy = 0) := by
    simp only [rookDirections, bishopDirections, List.mem_append, List.mem_cons,
      List.not_mem_nil, or_false] at hdu
    rcases hdu with (h | h | h | h) | (h | h | h | h) <;>
      (injection h with ha hb; subst ha; subst hb;
        exact ⟨by decide, by decide, by decide⟩)
  obtain ⟨hdx, hdy, hd0⟩ := hunit
  obtain ⟨l, hl, hmem⟩ := rayAll_mem hWF x y dirs
  obtain ⟨ld, hld, hiff⟩ := ray_spec_origin hWF hxy hdx hdy hd0 k hk
  refine ⟨l, hl, ?_⟩
  rw [hmem]
  constructor
  · rintro ⟨dd, hddmem, ld2, hld2, hmem2⟩
    obtain ⟨ddx, ddy⟩ := dd
    by_cases hsame : ddx = dx ∧ ddy = dy
    · obtain ⟨rfl, rfl⟩ := hsame
      have hld3 : Except.ok (ε := Unit) ld = Except.ok ld2 := by
        rw [← hld, ← hld2]
      injection hld3 with hl3
      rw [← hl3] at hmem2
      exact hiff.mp hmem2
    · exfalso
      obtain ⟨m2, hform⟩ := ray_elems_form 16 (x + ddx) (y + ddy) ld2 hld2 _ hmem2
      rw [Prod.mk.injEq] at hform
      exact dirs_exclusive dx dy ddx ddy hdu (hdirs _ hddmem) hsame x y k m2 hk hform
  · intro hcond
    exact ⟨(dx, dy), hd, ld, hld, hiff.mpr hcond⟩

/-- C6.  Rook and Bishop ray-casting, satisfied square by square: for a
piece on in-bounds `(x, y)` and any of its four directions, the square `k ≥ 1`
steps out is generated exactly when it is on the board, every strictly
earlier ray square is empty, and it is itself empty or holds an opposing
piece — so rays stop at the first occupied square, include it only on
opposing color, and never pass beyond it. -/
theorem ray_casting_spec (c : Color) (g : Grid) (hWF : WF8 g) (x y : Int)
    (hxy : inBp x y) (dx dy : Int) (k : Nat) (hk : 1 ≤ k) :
    ((dx, dy) ∈ rookDirections →
      ∃ l, Rook.get_legal_moves c g x y = .ok l ∧
        ((x + (k : Int) * dx, y + (k : Int) * dy) ∈ l ↔ rayCond c g x y dx dy k)) ∧
    ((dx, dy) ∈ bishopDirections →
      ∃ l, Bishop.get_legal_moves c g x y = .ok l ∧
        ((x + (k : Int) * dx, y + (k : Int) * dy) ∈ l ↔ rayCond c g x y dx dy k)) :=
  ⟨fun hd => rayAll_spec hWF hxy rookDirections (by decide) hd k hk,
   fun hd => rayAll_spec hWF hxy bishopDirections (by decide) hd k hk⟩

/-- C6 witness: the white rook on (0,7) of the initial board, direction
(0,-1), one step. -/
theorem ray_casting_spec_witness :
    (((0 : Int), (-1 : Int)) ∈ rookDirections →
      ∃ l, Rook.get_legal_moves Color.w Board.init_pieces 0 7 = .ok l ∧
        (((0 : Int) + ((1 : Nat) : Int) * 0, (7 : Int) + ((1 : Nat) : Int) * (-1)) ∈ l ↔
          rayCond Color.w Board.init_pieces 0 7 0 (-1) 1)) ∧
    (((0 : Int), (-1 : Int)) ∈ bishopDirections →
      ∃ l, Bishop.get_legal_moves Color.w Board.init_pieces 0 7 = .ok l ∧
        (((0 : Int) + ((1 : Nat) : Int) * 0, (7 : Int) + ((1 : Nat) : Int) * (-1)) ∈ l ↔
          rayCond Color.w Board.init_pieces 0 7 0 (-1) 1)) :=
  ray_casting_spec Color.w Board.init_pieces (by decide) 0 7 (by decide) 0 (-1) 1
    (by decide)

/-! ### Pawn move generation -/

lemma pawnForward_spec {c : Color} {g : Grid} (hWF : WF8 g) {x y : Int}
    (hxy : inBp x y) (hfwd : inBp x (y - pawnDir c)) :
    ∃ fl, pawnForward c g x y = .ok fl ∧
      ((x, y - pawnDir c) ∈ fl ↔ cellE g x (y - pawnDir c) = .ok none) ∧
      ((x, y - 2 * pawnDir c) ∈ fl ↔
        (y = startRow c ∧ cellE g x (y - pawnDir c) = .ok none ∧
          cellE g x (y - 2 * pawnDir c) = .ok none)) ∧
      (∀ m ∈ fl, m = (x, y - pawnDir c) ∨ m = (x, y - 2 * pawnDir c)) := by
  have hdne : (y - pawnDir c) ≠ (y - 2 * pawnDir c) := by
    cases c <;> simp only [pawnDir] <;> omega
  obtain ⟨cl, hcl⟩ := cellE_ok hWF hfwd
  cases cl with
  | some pc =>
    refine ⟨[], ?_, ?_, ?_, by simp⟩
    · simp only [pawnForward, hcl]
    · apply iff_of_false (by simp)
      intro h
      rw [hcl] at h
      exact absurd h (by simp)
    · apply iff_of_false (by simp)
      rintro ⟨_, h2, _⟩
      rw [hcl] at h2
      exact absurd h2 (by simp)
  | none =>
    by_cases hs : y = startRow c
    · have hfwd2 : inBp x (y - 2 * pawnDir c) := by
        obtain ⟨hx0, hx8, hy0, hy8⟩ := hxy
        unfold inBp
        cases c <;> simp only [pawnDir, startRow] at hs ⊢ <;> omega
      obtain ⟨cl2, hcl2⟩ := cellE_ok hWF hfwd2
      cases cl2 with
      | none =>
        refine ⟨[(x, y - pawnDir c), (x, y - 2 * pawnDir c)], ?_, ?_, ?_, ?_⟩
        · simp only [pawnForward, hcl]
          rw [if_pos hs]
          simp only [hcl2]
        · exact iff_of_true (by simp) hcl
        · exact iff_of_true (by simp) ⟨hs, hcl, hcl2⟩
        · intro m hm
          simp only [List.mem_cons, List.mem_singleton, List.not_mem_nil, or_false] at hm
          rcases hm with rfl | rfl
          · exact Or.inl rfl
          · exact Or.inr rfl
      | some pc2 =>
        refine ⟨[(x, y - pawnDir c)], ?_, ?_, ?_, ?_⟩
        · simp only [pawnForward, hcl]
          rw [if_pos hs]
          simp only [hcl2]
        · exact iff_of_true (by simp) hcl
        · apply iff_of_false
          · intro hmem
            simp only [List.mem_singleton, Prod.mk.injEq] at hmem
            exact hdne hmem.2.symm
          · rintro ⟨_, _, h3⟩
            rw [hcl2] at h3
            exact absurd h3 (by simp)
        · intro m hm
          simp only [List.mem_singleton] at hm
          exact Or.inl hm
    · refine ⟨[(x, y - pawnDir c)], ?_, ?_, ?_, ?_⟩
      · simp only [pawnForward, hcl]
        rw [if_neg hs]
      · exact iff_of_true (by simp) hcl
      · apply iff_of_false
        · intro hmem
          simp only [List.mem_singleton, Prod.mk.injEq] at hmem
          exact hdne hmem.2.symm
        · rintro ⟨h1, _, _⟩
          exact hs h1
      · intro m hm
        simp only [List.mem_singleton] at hm
        exact Or.inl hm

lemma pawnDiag_spec {g : Grid} (hWF : WF8 g) (c : Color) (x y dx2 : Int) :
    ∃ dl, pawnDiag c g x y dx2 = .ok dl ∧
      ∀ m : Int × Int, m ∈ dl ↔
        (inBp (x + dx2) (y - pawnDir c) ∧ m = (x + dx2, y - pawnDir c) ∧
          ∃ p : Piece, cellE g (x + dx2) (y - pawnDir c) = .ok (some p) ∧
            p.color ≠ c) := by
  by_cases hin : inBp (x + dx2) (y - pawnDir c)
  · obtain ⟨cl, hcl⟩ := cellE_ok hWF hin
    cases cl with
    | none =>
      refine ⟨[], ?_, ?_⟩
      · simp only [pawnDiag]
        rw [if_pos hin]
        simp only [hcl]
      · intro m
        apply iff_of_false (by simp)
        rintro ⟨_, _, p, hp, _⟩
        rw [hcl] at hp
        exact absurd hp (by simp)
    | some p =>
      by_cases hpc : p.color ≠ c
      · refine ⟨[(x + dx2, y - pawnDir c)], ?_, ?_⟩
        · simp only [pawnDiag]
          rw [if_pos hin]
          simp only [hcl]
          rw [if_pos hpc]
        · intro m
          constructor
          · intro hm
            rcases List.mem_singleton.mp hm with rfl
            exact ⟨hin, rfl, p, hcl, hpc⟩
          · rintro ⟨_, rfl, _⟩
            simp
      · refine ⟨[], ?_, ?_⟩
        · simp only [pawnDiag]
          rw [if_pos hin]
          simp only [hcl]
          rw [if_neg hpc]
        · intro m
          apply iff_of_false (by simp)
          rintro ⟨_, _, q, hq, hqc⟩
          rw [hcl] at hq
          apply hpc
          have hpq : p = q := by
            injection hq with h2
            injection h2
          rw [hpq]
          exact hqc
  · refine ⟨[], ?_, ?_⟩
    · simp only [pawnDiag]
      rw [if_neg hin]
    · intro m
      apply iff_of_false (by simp)
      rintro ⟨h1, _, _⟩
      exact hin h1

/-- C7.  Pawn move generation, for a pawn whose forward square exists (for
the far-rank pawn see the C1/C2 failing inputs): the double step is offered
exactly from the starting rank with both the one-step and two-step squares
empty; the single step exactly when the forward square is empty; a diagonal
exactly when it is on the board and holds an opposing piece; and nothing else
is ever offered. -/
theorem pawn_moves_spec (c : Color) (g : Grid) (hWF : WF8 g) (x y : Int)
    (hxy : inBp x y) (hfwd : inBp x (y - pawnDir c)) :
    ∃ l, Pawn.get_legal_moves c g x y = .ok l ∧
      ((x, y - 2 * pawnDir c) ∈ l ↔
        (y = startRow c ∧ cellE g x (y - pawnDir c) = .ok none ∧
          cellE g x (y - 2 * pawnDir c) = .ok none)) ∧
      ((x, y - pawnDir c) ∈ l ↔ cellE g x (y - pawnDir c) = .ok none) ∧
      (∀ dx2 : Int, dx2 = -1 ∨ dx2 = 1 →
        ((x + dx2, y - pawnDir c) ∈ l ↔
          (inBp (x + dx2) (y - pawnDir c) ∧
            ∃ p : Piece, cellE g (x + dx2) (y - pawnDir c) = .ok (some p) ∧
              p.color ≠ c))) ∧
      (∀ m ∈ l, m = (x, y - pawnDir c) ∨ m = (x, y - 2 * pawnDir c) ∨
        m = (x + -1, y - pawnDir c) ∨ m = (x + 1, y - pawnDir c)) := by
  obtain ⟨fl, hfl, hm1, hm2, honly⟩ := pawnForward_spec hWF hxy hfwd
  obtain ⟨dl, hdl, hdmem⟩ := pawnDiag_spec hWF c x y (-1)
  obtain ⟨dr, hdr, hdmem2⟩ := pawnDiag_spec hWF c x y 1
  refine ⟨fl ++ (dl ++ dr), ?_, ?_, ?_, ?_, ?_⟩
  · simp only [Pawn.get_legal_moves, hfl, hdl, hdr]
  · rw [List.mem_append, List.mem_append]
    constructor
    · rintro (h | h | h)
      · exact hm2.mp h
      · exfalso
        obtain ⟨_, heq, _⟩ := (hdmem _).mp h
        rw [Prod.mk.injEq] at heq
        omega
      · exfalso
        obtain ⟨_, heq, _⟩ := (hdmem2 _).mp h
        rw [Prod.mk.injEq] at heq
        omega
    · intro hr
      exact Or.inl (hm2.mpr hr)
  · rw [List.mem_append, List.mem_append]
    constructor
    · rintro (h | h | h)
      · exact hm1.mp h
      · exfalso
        obtain ⟨_, heq, _⟩ := (hdmem _).mp h
        rw [Prod.mk.injEq] at heq
        omega
      · exfalso
        obtain ⟨_, heq, _⟩ := (hdmem2 _).mp h
        rw [Prod.mk.injEq] at heq
        omega
    · intro hr
      exact Or.inl (hm1.mpr hr)
  · intro dx2 hdx2
    rw [List.mem_append, List.mem_append]
    constructor
    · rintro (h | h | h)
      · exfalso
        rcases honly _ h with heq | heq <;>
          (rw [Prod.mk.injEq] at heq; rcases hdx2 with rfl | rfl <;> omega)
      · obtain ⟨hin2, heq, p, hp, hpc⟩ := (hdmem _).mp h
        rcases hdx2 with rfl | rfl
        · exact ⟨hin2, p, hp, hpc⟩
        · exfalso
          rw [Prod.mk.injEq] at heq
          omega
      · obtain ⟨hin2, heq, p, hp, hpc⟩ := (hdmem2 _).mp h
        rcases hdx2 with rfl | rfl
        · exfalso
          rw [Prod.mk.injEq] at heq
          omega
        · exact ⟨hin2, p, hp, hpc⟩
    · rintro ⟨hin2, p, hp, hpc⟩
      rcases hdx2 with rfl | rfl
      · exact Or.inr (Or.inl ((hdmem _).mpr ⟨hin2, rfl, p, hp, hpc⟩))
      · exact Or.inr (Or.inr ((hdmem2 _).mpr ⟨hin2, rfl, p, hp, hpc⟩))
  · intro m hm
    rw [List.mem_append, List.mem_append] at hm
    rcases hm with h | h | h
    · rcases honly _ h with rfl | rfl
      · exact Or.inl rfl
      · exact Or.inr (Or.inl rfl)
    · obtain ⟨_, rfl, _⟩ := (hdmem _).mp h
      exact Or.inr (Or.inr (Or.inl rfl))
    · obtain ⟨_, rfl, _⟩ := (hdmem2 _).mp h
      exact Or.inr (Or.inr (Or.inr rfl))

/-- C7 witness: the white pawn on (0,6) of the initial board. -/
theorem pawn_moves_spec_witness :
    ∃ l, Pawn.get_legal_moves Color.w Board.init_pieces 0 6 = .ok l ∧
      (((0 : Int), 6 - 2 * pawnDir Color.w) ∈ l ↔
        ((6 : Int) = startRow Color.w ∧
          cellE Board.init_pieces 0 (6 - pawnDir Color.w) = .ok none ∧
          cellE Board.init_pieces 0 (6 - 2 * pawnDir Color.w) = .ok none)) ∧
      (((0 : Int), 6 - pawnDir Color.w) ∈ l ↔
        cellE Board.init_pieces 0 (6 - pawnDir Color.w) = .ok none) ∧
      (∀ dx2 : Int, dx2 = -1 ∨ dx2 = 1 →
        (((0 : Int) + dx2, 6 - pawnDir Color.w) ∈ l ↔
          (inBp (0 + dx2) (6 - pawnDir Color.w) ∧
            ∃ p : Piece, cellE Board.init_pieces (0 + dx2) (6 - pawnDir Color.w)
                = .ok (some p) ∧ p.color ≠ Color.w))) ∧
      (∀ m ∈ l, m = ((0 : Int), 6 - pawnDir Color.w) ∨
        m = (0, 6 - 2 * pawnDir Color.w) ∨
        m = (0 + -1, 6 - pawnDir Color.w) ∨ m = (0 + 1, 6 - pawnDir Color.w)) :=
  pawn_moves_spec Color.w Board.init_pieces (by decide) 0 6 (by decide) (by decide)
